import Mathlib

/-!
Verification of the SanBaiQian coverage checker core
(`sanbaiqian_coverage.py`) against its specification.

Characters are modelled as `Nat` codepoints and Python strings as
`List Nat`; exact rational arithmetic (`ℚ`) stands in for the
percentage computations.
-/

/-- The static Han range table `HAN_RANGES` from the source, in source
order: Extension A, Basic, Compatibility, Extensions B through H, then
Extensions I and J as they appear in the file. -/
def HAN_RANGES : List (Nat × Nat) :=
  [ (0x3400, 0x4DBF)
  , (0x4E00, 0x9FFF)
  , (0xF900, 0xFAFF)
  , (0x20000, 0x2A6DF)
  , (0x2A700, 0x2B73F)
  , (0x2B740, 0x2B81F)
  , (0x2B820, 0x2CEAF)
  , (0x2CEB0, 0x2EBEF)
  , (0x30000, 0x3134F)
  , (0x31350, 0x323AF)
  , (0x2EBF0, 0x2EE5D)
  , (0x323B0, 0x33479) ]

/-- The range test at the heart of `is_han`: linear scan of `HAN_RANGES`
for an inclusive interval containing the codepoint. -/
def isHanCp (c : Nat) : Bool :=
  HAN_RANGES.any (fun r => decide (r.1 ≤ c) && decide (c ≤ r.2))

/-- `is_han(ch)` from the source: the empty string returns `False`;
otherwise `ord(ch)` is taken, which succeeds only on a one-character
string (a longer string raises `TypeError`, modelled as `none`). -/
def is_han : List Nat → Option Bool
  | [] => some false
  | [c] => some (isHanCp c)
  | _ :: _ :: _ => none

/-- Python's whitespace test for a single codepoint: `ch.strip() == ""`
holds exactly when the character is Unicode whitespace in Python's
sense (`Py_UNICODE_ISSPACE`). -/
def pyIsSpace (c : Nat) : Bool :=
  (decide (9 ≤ c) && decide (c ≤ 13)) ||
  (decide (28 ≤ c) && decide (c ≤ 31)) ||
  decide (c = 32) || decide (c = 133) || decide (c = 160) ||
  decide (c = 0x1680) ||
  (decide (0x2000 ≤ c) && decide (c ≤ 0x200A)) ||
  decide (c = 0x2028) || decide (c = 0x2029) || decide (c = 0x202F) ||
  decide (c = 0x205F) || decide (c = 0x3000)

/-- `iter_text_chars(text, han_only)`: drop characters failing `is_han`
when `han_only` is set, and always drop whitespace
(`ch.strip() == ""`). Every character inspected is a single codepoint,
so the `is_han` call is its single-character case `isHanCp`. -/
def iter_text_chars (text : List Nat) (han_only : Bool) : List Nat :=
  text.filter (fun c => (!han_only || isHanCp c) && !(pyIsSpace c))

/-- The value object returned by `coverage_report` (a Python dict with
fixed keys). Frequency tables are association lists in the insertion
order of Python's `Counter`. -/
structure CoverageReport where
  total_chars : Nat
  known_chars : Nat
  unknown_chars : Nat
  coverage_pct : ℚ
  known_freq : List (Nat × Nat)
  unknown_freq : List (Nat × Nat)
deriving DecidableEq

/-- One step of Python `Counter` construction: increment the count of
`c`, keeping first-occurrence (dict insertion) order of the keys. -/
def bumpCount (c : Nat) : List (Nat × Nat) → List (Nat × Nat)
  | [] => [(c, 1)]
  | p :: ps => if p.1 = c then (p.1, p.2 + 1) :: ps else p :: bumpCount c ps

/-- `Counter(chars)`: fold `bumpCount` over the character sequence. -/
def counter (l : List Nat) : List (Nat × Nat) :=
  l.foldl (fun acc c => bumpCount c acc) []

/-- `coverage_report(text, inventory, han_only)` from the source. -/
def coverage_report (text inv : List Nat) (han_only : Bool) : CoverageReport :=
  let chars := iter_text_chars text han_only
  let total := chars.length
  let known := chars.filter (fun c => decide (c ∈ inv))
  let unknown := chars.filter (fun c => decide (c ∉ inv))
  let known_count := known.length
  let unknown_count := unknown.length
  { total_chars := total
  , known_chars := known_count
  , unknown_chars := unknown_count
  , coverage_pct := if total = 0 then 100 else (known_count : ℚ) / (total : ℚ) * 100
  , known_freq := counter known
  , unknown_freq := counter unknown }

/-- Sum of the occurrence counts of a frequency table. -/
def sumCounts (f : List (Nat × Nat)) : Nat :=
  (f.map Prod.snd).sum

/-- The ordering check the spec demands of the range table: for every
consecutive pair of intervals, the start of the later interval exceeds
the end of the earlier one. -/
def consecutiveAscending : List (Nat × Nat) → Bool
  | [] => true
  | [_] => true
  | a :: b :: rest => decide (a.2 < b.1) && consecutiveAscending (b :: rest)

/-- Two inclusive intervals have no common point. -/
def intervalsDisjoint (a b : Nat × Nat) : Bool :=
  decide (a.2 < b.1) || decide (b.2 < a.1)

/-- Every two distinct intervals of the list are disjoint. -/
def pairwiseDisjoint : List (Nat × Nat) → Bool
  | [] => true
  | a :: rest => rest.all (intervalsDisjoint a) && pairwiseDisjoint rest

/-- The line boundaries recognised by Python `str.splitlines`: LF, VT,
FF, CR, FS, GS, RS, NEL, LINE SEPARATOR and PARAGRAPH SEPARATOR (with
CR LF treated as a single boundary by the splitter itself). -/
def isLineBoundary (c : Nat) : Bool :=
  decide (c = 10) || decide (c = 11) || decide (c = 12) || decide (c = 13) ||
  decide (c = 28) || decide (c = 29) || decide (c = 30) || decide (c = 133) ||
  decide (c = 0x2028) || decide (c = 0x2029)

/-- Worker for `str.splitlines`: `cur` is the current line, reversed.
A CR immediately followed by LF consumes both; a trailing fragment
without a terminator becomes a line of its own; no trailing empty line
is produced after a final terminator. -/
def splitGo : List Nat → List Nat → List (List Nat)
  | cur, [] => if cur.isEmpty then [] else [cur.reverse]
  | cur, c :: rest =>
    if isLineBoundary c then
      match rest with
      | d :: rest2 =>
        if c = 13 ∧ d = 10 then cur.reverse :: splitGo [] rest2
        else cur.reverse :: splitGo [] (d :: rest2)
      | [] => [cur.reverse]
    else splitGo (c :: cur) rest

/-- `text.splitlines()` from Python. -/
def splitlines (t : List Nat) : List (List Nat) :=
  splitGo [] t

/-- `line.rstrip("\n")`: remove trailing line-feed characters. -/
def rstripLF (l : List Nat) : List Nat :=
  (l.reverse.dropWhile (fun c => decide (c = 10))).reverse

/-- One tuple `(line_no, total, known, coverage_pct, line_text)` of
`per_line_breakdown`. -/
structure PerLineRecord where
  line_no : Nat
  total : Nat
  known : Nat
  pct : ℚ
  line : List Nat
deriving DecidableEq

/-- Default record used with `List.getD`. -/
def emptyRecord : PerLineRecord :=
  ⟨0, 0, 0, 0, []⟩

/-- The loop body of `per_line_breakdown` for one enumerated line. -/
def perLineRecord (i : Nat) (line inv : List Nat) (han_only : Bool) : PerLineRecord :=
  let chars := iter_text_chars line han_only
  let total := chars.length
  if total = 0 then ⟨i, 0, 0, 100, rstripLF line⟩
  else
    let known := (chars.filter (fun c => decide (c ∈ inv))).length
    ⟨i, total, known, (known : ℚ) / (total : ℚ) * 100, rstripLF line⟩

/-- The enumerated loop of `per_line_breakdown`, starting at index `i`. -/
def plbGo (inv : List Nat) (han_only : Bool) : Nat → List (List Nat) → List PerLineRecord
  | _, [] => []
  | i, l :: ls => perLineRecord i l inv han_only :: plbGo inv han_only (i + 1) ls

/-- `per_line_breakdown(text, inventory, han_only)` from the source:
split the text with `splitlines`, then emit one record per line,
1-indexed. -/
def per_line_breakdown (text inv : List Nat) (han_only : Bool) : List PerLineRecord :=
  plbGo inv han_only 1 (splitlines text)

/-- Modelled from the spec: the line splitting as claim C4 words it,
where a line is terminated by a line-feed ONLY, a trailing fragment
without a terminator is its own line, and empty text yields no lines.
Used solely to exhibit where the code diverges from that claim. -/
def specSplitLFGo : List Nat → List Nat → List (List Nat)
  | cur, [] => if cur.isEmpty then [] else [cur.reverse]
  | cur, c :: rest =>
    if c = 10 then cur.reverse :: specSplitLFGo [] rest
    else specSplitLFGo (c :: cur) rest

/-- Modelled from the spec: top-level LF-only splitter of claim C4. -/
def specSplitLF (t : List Nat) : List (List Nat) :=
  specSplitLFGo [] t

/-- Stable insertion for a descending-count sort: the new entry goes in
front of the first entry whose count it reaches, so entries of equal
count keep their original relative order — the stability guarantee of
the sort underlying `Counter.most_common`. -/
def insCountDesc (x : Nat × Nat) : List (Nat × Nat) → List (Nat × Nat)
  | [] => [x]
  | y :: ys => if y.2 ≤ x.2 then x :: y :: ys else y :: insCountDesc x ys

/-- Stable sort of a frequency table by descending count. -/
def sortCountDesc : List (Nat × Nat) → List (Nat × Nat)
  | [] => []
  | x :: xs => insCountDesc x (sortCountDesc xs)

/-- `Counter.most_common(n)`: the first `n` entries of the stable
descending-count ordering of the table (Python's `heapq.nlargest` is
equivalent to a stable `sorted(..., reverse=True)` prefix). -/
def mostCommon (n : Nat) (f : List (Nat × Nat)) : List (Nat × Nat) :=
  (sortCountDesc f).take n

/-- The high-frequency Top-N unknown list printed by
`build_report_text`: `rep["unknown_freq"].most_common(top_unknown)`. -/
def topUnknownList (text inv : List Nat) (han_only : Bool) (n : Nat) : List (Nat × Nat) :=
  mostCommon n (coverage_report text inv han_only).unknown_freq

/-- Count lookup in a frequency table, `rep["unknown_freq"][ch]`. -/
def lookupCount (f : List (Nat × Nat)) (c : Nat) : Nat :=
  match f.find? (fun q => decide (q.1 = c)) with
  | some q => q.2
  | none => 0

/-- Insertion step for the unique-OOV ordering of the source,
`unique_oov.sort(key=lambda ch: (-freq[ch], ord(ch)))`: descending
frequency, ties broken by ascending codepoint. -/
def insCanon (f : List (Nat × Nat)) (c : Nat) : List Nat → List Nat
  | [] => [c]
  | y :: ys =>
    if lookupCount f y < lookupCount f c ∨
        (lookupCount f c = lookupCount f y ∧ c < y) then c :: y :: ys
    else y :: insCanon f c ys

/-- The canonical unique-OOV ordering used for the unique-OOV string:
the table's keys sorted by descending frequency, ties by ascending
codepoint. -/
def uniqueOOVsorted (f : List (Nat × Nat)) : List Nat :=
  (f.map Prod.fst).foldr (insCanon f) []

/-- Decimal digit codepoints of `n`, most significant first: the
rendering a Python f-string gives a nonnegative integer. `fuel` bounds
the recursion; any fuel above `n` is enough. -/
def renderNatAux : Nat → Nat → List Nat
  | 0, _ => []
  | fuel + 1, n =>
    if n < 10 then [48 + n] else renderNatAux fuel (n / 10) ++ [48 + n % 10]

/-- Decimal rendering of a natural number as digit codepoints. -/
def renderNat (n : Nat) : List Nat :=
  renderNatAux (n + 1) n

/-- Decimal decoding of digit codepoints, used to prove `renderNat`
injective. -/
def parseNat (ds : List Nat) : Nat :=
  ds.foldl (fun a d => a * 10 + (d - 48)) 0

/-- A `pathlib.Path` as `load_inventories` sees it: its stem, its full
string form, and the text content read from it. -/
structure PyPath where
  stem : List Nat
  full : List Nat
  content : List Nat
deriving DecidableEq

/-- `p.stem or str(p)` from the source: the stem, or the whole path
string when the stem is empty. -/
def pyLabel (p : PyPath) : List Nat :=
  if p.stem = [] then p.full else p.stem

/-- `load_inventory`: the set of Han-classified characters of the file
content (represented as the deduplicated list; only membership
matters). -/
def load_inventory (content : List Nat) : List Nat :=
  (content.filter isHanCp).dedup

/-- The collision loop of `load_inventories`: starting at suffix `n`,
return the first `base ++ "-" ++ str(n)` not in `used`. `fuel` bounds
the loop; any fuel above `used.length` always suffices
(`freshLabelAux_spec` together with `exists_fresh_suffix`). -/
def freshLabelAux (used : List (List Nat)) (base : List Nat) : Nat → Nat → List Nat
  | 0, n => base ++ 45 :: renderNat n
  | fuel + 1, n =>
    if base ++ 45 :: renderNat n ∈ used then freshLabelAux used base fuel (n + 1)
    else base ++ 45 :: renderNat n

/-- Label selection of `load_inventories`: the base label itself when
unused, otherwise the first unused of `base-2`, `base-3`, …. -/
def freshLabel (used : List (List Nat)) (base : List Nat) : List Nat :=
  if base ∈ used then freshLabelAux used base (used.length + 1) 2 else base

/-- The loop of `load_inventories`, threading the ordered map built so
far (an association list in dict insertion order). -/
def loadInvGo : List PyPath → List (List Nat × List Nat) → List (List Nat × List Nat)
  | [], acc => acc
  | p :: ps, acc =>
    loadInvGo ps
      (acc ++ [(freshLabel (acc.map Prod.fst) (pyLabel p), load_inventory p.content)])

/-- `load_inventories(paths)` from the source. -/
def load_inventories (ps : List PyPath) : List (List Nat × List Nat) :=
  loadInvGo ps []

/-- Default path used with `List.getD`. -/
def dfltPath : PyPath :=
  ⟨[], [], []⟩

-- § Helper lemmas -------------------------------------------------------------

theorem length_filter_not_add (l : List Nat) (p : Nat → Bool) :
    (l.filter p).length + (l.filter (fun c => !(p c))).length = l.length := by
  induction l with
  | nil => rfl
  | cons a as ih =>
    cases h : p a <;> simp [List.filter_cons, h] <;> omega

theorem length_filter_mono (l : List Nat) (p q : Nat → Bool)
    (h : ∀ a, p a = true → q a = true) :
    (l.filter p).length ≤ (l.filter q).length := by
  induction l with
  | nil => exact Nat.le_refl _
  | cons a as ih =>
    by_cases hp : p a = true
    · simp [List.filter_cons, hp, h a hp]
      omega
    · have hp' : p a = false := by
        cases hpa : p a
        · rfl
        · exact absurd hpa hp
      cases hq : q a <;> simp [List.filter_cons, hp', hq] <;> omega

theorem sumCounts_bumpCount (c : Nat) (f : List (Nat × Nat)) :
    sumCounts (bumpCount c f) = sumCounts f + 1 := by
  induction f with
  | nil => rfl
  | cons p ps ih =>
    by_cases h : p.1 = c <;> simp [bumpCount, h, sumCounts] at * <;> omega

theorem sumCounts_counter_aux (l : List Nat) :
    ∀ acc, sumCounts (l.foldl (fun a c => bumpCount c a) acc) = sumCounts acc + l.length := by
  induction l with
  | nil => intro acc; simp
  | cons a as ih =>
    intro acc
    simp only [List.foldl_cons, List.length_cons, ih, sumCounts_bumpCount]
    omega

theorem sumCounts_counter (l : List Nat) : sumCounts (counter l) = l.length := by
  simpa [counter, sumCounts] using sumCounts_counter_aux l []

theorem splitGo_nil (cur : List Nat) :
    splitGo cur [] = if cur.isEmpty then [] else [cur.reverse] := rfl

theorem splitGo_cons_not_boundary (cur : List Nat) (c : Nat) (rest : List Nat)
    (h : isLineBoundary c = false) :
    splitGo cur (c :: rest) = splitGo (c :: cur) rest := by
  cases rest <;> simp [splitGo, h]

theorem splitGo_cons_boundary (cur : List Nat) (c : Nat) (b : List Nat)
    (hb : isLineBoundary c = true) (h : ¬(c = 13 ∧ b.head? = some 10)) :
    splitGo cur (c :: b) = cur.reverse :: splitGo [] b := by
  cases b with
  | nil => simp [splitGo, hb]
  | cons d rest2 =>
    have h2 : ¬(c = 13 ∧ d = 10) := by simpa using h
    simp [splitGo, hb, h2]

theorem splitGo_crlf (cur b : List Nat) :
    splitGo cur (13 :: 10 :: b) = cur.reverse :: splitGo [] b := by
  have hb : isLineBoundary 13 = true := by decide
  simp [splitGo, hb]

theorem splitGo_append_no_boundary :
    ∀ (a : List Nat), (∀ x ∈ a, isLineBoundary x = false) →
    ∀ cur b, splitGo cur (a ++ b) = splitGo (a.reverse ++ cur) b := by
  intro a
  induction a with
  | nil => intro _ cur b; simp
  | cons x a' ih =>
    intro ha cur b
    have hx := ha x (List.mem_cons_self x a')
    have ha' : ∀ y ∈ a', isLineBoundary y = false :=
      fun y hy => ha y (List.mem_cons_of_mem _ hy)
    rw [List.cons_append, splitGo_cons_not_boundary _ _ _ hx, ih ha' (x :: cur) b]
    simp

theorem splitlines_no_boundary (a : List Nat)
    (ha : ∀ x ∈ a, isLineBoundary x = false) (hne : a ≠ []) :
    splitlines a = [a] := by
  have h := splitGo_append_no_boundary a ha [] []
  rw [List.append_nil, List.append_nil] at h
  rw [splitlines, h, splitGo_nil]
  have : a.reverse.isEmpty = false := by
    cases hrev : a.reverse with
    | nil => exact absurd (List.reverse_eq_nil_iff.mp hrev) hne
    | cons y ys => rfl
  simp [this]

theorem splitlines_append_boundary (a : List Nat) (c : Nat) (b : List Nat)
    (ha : ∀ x ∈ a, isLineBoundary x = false) (hc : isLineBoundary c = true)
    (h : ¬(c = 13 ∧ b.head? = some 10)) :
    splitlines (a ++ c :: b) = a :: splitlines b := by
  rw [splitlines, splitGo_append_no_boundary a ha [] (c :: b),
    splitGo_cons_boundary _ _ _ hc h]
  simp [splitlines]

theorem splitlines_append_crlf (a b : List Nat)
    (ha : ∀ x ∈ a, isLineBoundary x = false) :
    splitlines (a ++ 13 :: 10 :: b) = a :: splitlines b := by
  rw [splitlines, splitGo_append_no_boundary a ha [] (13 :: 10 :: b), splitGo_crlf]
  simp [splitlines]

theorem plbGo_length (inv : List Nat) (h : Bool) :
    ∀ (ls : List (List Nat)) (i : Nat), (plbGo inv h i ls).length = ls.length := by
  intro ls
  induction ls with
  | nil => intro i; rfl
  | cons l ls ih => intro i; simp [plbGo, ih]

theorem plbGo_getD (inv : List Nat) (h : Bool) :
    ∀ (ls : List (List Nat)) (i j : Nat), j < ls.length →
      (plbGo inv h i ls).getD j emptyRecord = perLineRecord (i + j) (ls.getD j []) inv h := by
  intro ls
  induction ls with
  | nil => intro i j hj; simp at hj
  | cons l ls ih =>
    intro i j hj
    cases j with
    | zero => simp [plbGo]
    | succ j' =>
      have hj' : j' < ls.length := by simpa using hj
      simp only [plbGo, List.getD_cons_succ]
      rw [ih (i + 1) j' hj']
      congr 1
      omega

-- § Claim theorems ------------------------------------------------------------

/-- Claim C1: for every text, inventory and `han_only` flag, the report
returned by `coverage_report` satisfies
`known_chars + unknown_chars = total_chars`. -/
theorem spec_c1 (text inv : List Nat) (han_only : Bool) :
    (coverage_report text inv han_only).known_chars +
      (coverage_report text inv han_only).unknown_chars =
      (coverage_report text inv han_only).total_chars := by
  have heq : (iter_text_chars text han_only).filter (fun c => decide (c ∉ inv))
      = (iter_text_chars text han_only).filter (fun c => !(decide (c ∈ inv))) :=
    List.filter_congr (fun c _ => by simp [decide_not])
  simp only [coverage_report, heq]
  exact length_filter_not_add _ _

/-- Claim C2: `coverage_pct` equals `known_chars / total_chars * 100`
whenever the counted-character total is positive, and is exactly `100`
when the total is zero; in particular, the empty text and a text made
only of whitespace (everything filtered out) report `100`. -/
theorem spec_c2 (text inv : List Nat) (han_only : Bool) :
    ((coverage_report text inv han_only).total_chars = 0 →
      (coverage_report text inv han_only).coverage_pct = 100)
    ∧ (0 < (coverage_report text inv han_only).total_chars →
      (coverage_report text inv han_only).coverage_pct =
        ((coverage_report text inv han_only).known_chars : ℚ) /
          ((coverage_report text inv han_only).total_chars : ℚ) * 100)
    ∧ (coverage_report [] inv han_only).coverage_pct = 100
    ∧ ((∀ c ∈ text, pyIsSpace c = true) →
      (coverage_report text inv han_only).coverage_pct = 100) := by
  refine ⟨?_, ?_, ?_, ?_⟩
  · intro h
    simp only [coverage_report] at h ⊢
    simp [h]
  · intro h
    simp only [coverage_report] at h ⊢
    rw [if_neg (by omega)]
  · simp [coverage_report, iter_text_chars]
  · intro h
    have hempty : iter_text_chars text han_only = [] := by
      simp only [iter_text_chars]
      rw [List.filter_eq_nil_iff]
      intro c hc
      simp [h c hc]
    simp [coverage_report, hempty]

/-- Witness for C2: a single-whitespace text is fully filtered out and
reports exactly 100 percent coverage. -/
theorem spec_c2_witness :
    (coverage_report [32] [] true).coverage_pct = 100 :=
  (spec_c2 [32] [] true).2.2.2 (by decide)

/-- Claim C5 evaluated on the code: the range table is NOT in ascending
order — the Extension I entry (index 10) starts below the end of the
Extension H entry (index 9) that precedes it — although the twelve
intervals are pairwise disjoint and every other consecutive pair is
ascending. -/
theorem spec_c5_eval :
    consecutiveAscending HAN_RANGES = false
    ∧ pairwiseDisjoint HAN_RANGES = true
    ∧ (HAN_RANGES.getD 10 (0, 0)).1 ≤ (HAN_RANGES.getD 9 (0, 0)).2
    ∧ consecutiveAscending (HAN_RANGES.take 10) = true
    ∧ consecutiveAscending (HAN_RANGES.drop 10) = true := by
  refine ⟨by decide, by decide, by decide, by decide, by decide⟩

/-- Claim C6: `is_han` returns false on the empty string and, on a
single character, returns true exactly when the codepoint lies in one
of the twelve inclusive ranges of the table. -/
theorem spec_c6 :
    is_han [] = some false
    ∧ HAN_RANGES.length = 12
    ∧ (∀ c : Nat, is_han [c] = some (isHanCp c))
    ∧ ∀ c : Nat, (is_han [c] = some true ↔ ∃ r ∈ HAN_RANGES, r.1 ≤ c ∧ c ≤ r.2) := by
  refine ⟨rfl, rfl, fun c => rfl, fun c => ?_⟩
  simp [is_han, isHanCp, List.any_eq_true]

/-- Claim C7: the known-character count against the union of two
inventories is at least the maximum of the counts against each
inventory separately. -/
theorem spec_c7 (text i1 i2 : List Nat) (han_only : Bool) :
    max (coverage_report text i1 han_only).known_chars
        (coverage_report text i2 han_only).known_chars
      ≤ (coverage_report text (i1 ++ i2) han_only).known_chars := by
  simp only [coverage_report]
  apply max_le
  · apply length_filter_mono
    intro a ha
    rw [decide_eq_true_eq] at ha ⊢
    exact List.mem_append.mpr (Or.inl ha)
  · apply length_filter_mono
    intro a ha
    rw [decide_eq_true_eq] at ha ⊢
    exact List.mem_append.mpr (Or.inr ha)

/-- Claim C8: with `han_only = true` the counted-character total never
exceeds the total with `han_only = false` on the same text. -/
theorem spec_c8 (text inv : List Nat) :
    (coverage_report text inv true).total_chars
      ≤ (coverage_report text inv false).total_chars := by
  simp only [coverage_report, iter_text_chars]
  apply length_filter_mono
  intro a ha
  simp only [Bool.not_true, Bool.false_or, Bool.not_false, Bool.true_or,
    Bool.true_and, Bool.and_eq_true] at ha ⊢
  exact ha.2

/-- Claim C10: in every report, the occurrence counts of `known_freq`
sum to `known_chars`, and those of `unknown_freq` sum to
`unknown_chars`. -/
theorem spec_c10 (text inv : List Nat) (han_only : Bool) :
    sumCounts (coverage_report text inv han_only).known_freq
        = (coverage_report text inv han_only).known_chars
    ∧ sumCounts (coverage_report text inv han_only).unknown_freq
        = (coverage_report text inv han_only).unknown_chars := by
  simp only [coverage_report]
  exact ⟨sumCounts_counter _, sumCounts_counter _⟩

/-- Counterexample to claim C4 as stated: on the text `"a\rb"` the code
splits at the carriage return and produces two per-line records, while
a split at line-feeds only would produce a single line. -/
theorem spec_c4_counterexample :
    (per_line_breakdown [97, 13, 98] [] false).length
      ≠ (specSplitLF [97, 13, 98]).length := by decide

/-- Claim C4 (amended): `per_line_breakdown` splits the text at every
Python universal line boundary (LF, CR, CR LF, VT, FF, FS, GS, RS,
NEL, LS, PS) — not at line-feeds only — a trailing fragment without a
terminator is its own line, and empty text yields zero records; the
records are in source line order, numbered from 1, with pct 100 for
zero-total lines. -/
theorem spec_c4 :
    (∀ inv h, per_line_breakdown [] inv h = [])
    ∧ (∀ text inv h, (per_line_breakdown text inv h).length = (splitlines text).length)
    ∧ (∀ text inv h i, i < (splitlines text).length →
        (per_line_breakdown text inv h).getD i emptyRecord
          = perLineRecord (i + 1) ((splitlines text).getD i []) inv h)
    ∧ (∀ i line inv h, (perLineRecord i line inv h).line_no = i
        ∧ (perLineRecord i line inv h).line = rstripLF line
        ∧ ((perLineRecord i line inv h).total = 0 →
            (perLineRecord i line inv h).pct = 100)
        ∧ (0 < (perLineRecord i line inv h).total →
            (perLineRecord i line inv h).pct
              = ((perLineRecord i line inv h).known : ℚ) /
                  ((perLineRecord i line inv h).total : ℚ) * 100))
    ∧ (∀ a : List Nat, (∀ x ∈ a, isLineBoundary x = false) → a ≠ [] →
        splitlines a = [a])
    ∧ (∀ (a : List Nat) (c : Nat) (b : List Nat),
        (∀ x ∈ a, isLineBoundary x = false) → isLineBoundary c = true →
        ¬(c = 13 ∧ b.head? = some 10) →
        splitlines (a ++ c :: b) = a :: splitlines b)
    ∧ (∀ a b : List Nat, (∀ x ∈ a, isLineBoundary x = false) →
        splitlines (a ++ 13 :: 10 :: b) = a :: splitlines b) := by
  refine ⟨?_, ?_, ?_, ?_, splitlines_no_boundary, splitlines_append_boundary,
    splitlines_append_crlf⟩
  · intro inv h; rfl
  · intro text inv h
    rw [per_line_breakdown, plbGo_length]
  · intro text inv h i hi
    rw [per_line_breakdown, plbGo_getD inv h _ 1 i hi]
    congr 1
    omega
  · intro i line inv h
    refine ⟨?_, ?_, ?_, ?_⟩
    · simp only [perLineRecord]
      split <;> rfl
    · simp only [perLineRecord]
      split <;> rfl
    · simp only [perLineRecord]
      split
      · intro _; rfl
      · intro hz
        exact absurd hz (by simp_all [perLineRecord])
    · simp only [perLineRecord]
      split
      · intro hpos
        simp_all
      · intro _; rfl

/-- Witness for C4: a line-feed inside the text really does terminate
a line in the code's splitter. -/
theorem spec_c4_witness :
    splitlines ([97] ++ 10 :: [98]) = [97] :: splitlines [98] :=
  spec_c4.2.2.2.2.2.1 [97] 10 [98] (by decide) (by decide) (by decide)

theorem insCountDesc_perm (x : Nat × Nat) (s : List (Nat × Nat)) :
    (insCountDesc x s).Perm (x :: s) := by
  induction s with
  | nil => exact List.Perm.refl _
  | cons y ys ih =>
    by_cases hc : y.2 ≤ x.2
    · simp [insCountDesc, hc]
    · simp only [insCountDesc, if_neg hc]
      exact (List.Perm.cons y ih).trans (List.Perm.swap x y ys)

theorem sortCountDesc_perm (l : List (Nat × Nat)) :
    (sortCountDesc l).Perm l := by
  induction l with
  | nil => exact List.Perm.refl _
  | cons x xs ih =>
    exact (insCountDesc_perm x (sortCountDesc xs)).trans (List.Perm.cons x ih)

theorem insCountDesc_pairwise (x : Nat × Nat) (s : List (Nat × Nat))
    (h : List.Pairwise (fun a b => b.2 ≤ a.2) s) :
    List.Pairwise (fun a b => b.2 ≤ a.2) (insCountDesc x s) := by
  induction s with
  | nil => simp [insCountDesc]
  | cons y ys ih =>
    rw [List.pairwise_cons] at h
    obtain ⟨h1, h2⟩ := h
    by_cases hc : y.2 ≤ x.2
    · simp only [insCountDesc, if_pos hc]
      rw [List.pairwise_cons]
      refine ⟨?_, List.pairwise_cons.mpr ⟨h1, h2⟩⟩
      intro z hz
      rcases List.mem_cons.mp hz with hz | hz
      · exact hz ▸ hc
      · exact Nat.le_trans (h1 z hz) hc
    · simp only [insCountDesc, if_neg hc]
      rw [List.pairwise_cons]
      refine ⟨?_, ih h2⟩
      intro z hz
      have hz' := (insCountDesc_perm x ys).mem_iff.mp hz
      rcases List.mem_cons.mp hz' with hz' | hz'
      · subst hz'
        exact Nat.le_of_lt (Nat.lt_of_not_le hc)
      · exact h1 z hz'

theorem sortCountDesc_pairwise (l : List (Nat × Nat)) :
    List.Pairwise (fun a b => b.2 ≤ a.2) (sortCountDesc l) := by
  induction l with
  | nil => simp [sortCountDesc]
  | cons x xs ih => exact insCountDesc_pairwise x (sortCountDesc xs) ih

theorem insCountDesc_filter (x : Nat × Nat) (k : Nat) (s : List (Nat × Nat)) :
    (insCountDesc x s).filter (fun q => decide (q.2 = k))
      = (x :: s).filter (fun q => decide (q.2 = k)) := by
  induction s with
  | nil => rfl
  | cons y ys ih =>
    by_cases hc : y.2 ≤ x.2
    · simp [insCountDesc, hc]
    · have hlt : x.2 < y.2 := Nat.lt_of_not_le hc
      simp only [insCountDesc, if_neg hc]
      by_cases hx : x.2 = k <;> by_cases hy : y.2 = k
      · omega
      · simp [List.filter_cons, hx, hy, ih]
      · simp [List.filter_cons, hx, hy, ih]
      · simp [List.filter_cons, hx, hy, ih]

theorem sortCountDesc_filter (k : Nat) (l : List (Nat × Nat)) :
    (sortCountDesc l).filter (fun q => decide (q.2 = k))
      = l.filter (fun q => decide (q.2 = k)) := by
  induction l with
  | nil => rfl
  | cons x xs ih =>
    rw [sortCountDesc, insCountDesc_filter, List.filter_cons, List.filter_cons, ih]

/-- Counterexample to claim C3 as stated: for the text `"甲乙"` and an
empty inventory both unknown characters occur once, and
`most_common` keeps their first-occurrence order `甲, 乙`, while the
canonical unique-OOV ordering breaks the tie by ascending codepoint
and yields `乙, 甲`. -/
theorem spec_c3_counterexample :
    (topUnknownList [0x7532, 0x4E59] [] true 15).map Prod.fst
      ≠ (uniqueOOVsorted ((coverage_report [0x7532, 0x4E59] [] true).unknown_freq)).take 15 := by
  decide

/-- Claim C3 (amended): the Top-N unknown list is the first N entries
of the stable descending-frequency ordering of the unknown frequency
table, in which entries of equal frequency keep their first-occurrence
order from the text (the tie-break of `Counter.most_common`) rather
than the ascending-codepoint tie-break of the unique-OOV string: the
ordering is a permutation of the table, sorted by nonincreasing count,
and restricting it to any fixed count value reproduces the table's own
first-occurrence order. -/
theorem spec_c3 (text inv : List Nat) (han_only : Bool) (n k : Nat) :
    topUnknownList text inv han_only n
        = (sortCountDesc (coverage_report text inv han_only).unknown_freq).take n
    ∧ (sortCountDesc (coverage_report text inv han_only).unknown_freq).Perm
        (coverage_report text inv han_only).unknown_freq
    ∧ List.Pairwise (fun a b => b.2 ≤ a.2)
        (sortCountDesc (coverage_report text inv han_only).unknown_freq)
    ∧ (sortCountDesc (coverage_report text inv han_only).unknown_freq).filter
          (fun q => decide (q.2 = k))
        = ((coverage_report text inv han_only).unknown_freq).filter
          (fun q => decide (q.2 = k)) :=
  ⟨rfl, sortCountDesc_perm _, sortCountDesc_pairwise _, sortCountDesc_filter _ _⟩

theorem parseNat_append_digit (xs : List Nat) (d : Nat) :
    parseNat (xs ++ [d]) = parseNat xs * 10 + (d - 48) := by
  rw [parseNat, List.foldl_append]
  rfl

theorem parseNat_renderNatAux :
    ∀ (fuel n : Nat), n < fuel → parseNat (renderNatAux fuel n) = n := by
  intro fuel
  induction fuel with
  | zero => intro n hn; omega
  | succ fuel ih =>
    intro n hn
    by_cases hsmall : n < 10
    · simp only [renderNatAux, if_pos hsmall, parseNat, List.foldl_cons, List.foldl_nil]
      omega
    · have hdiv : n / 10 < fuel := by
        have h1 : n / 10 < n := Nat.div_lt_self (by omega) (by omega)
        omega
      simp only [renderNatAux, if_neg hsmall, parseNat_append_digit, ih _ hdiv]
      omega

theorem parseNat_renderNat (n : Nat) : parseNat (renderNat n) = n :=
  parseNat_renderNatAux (n + 1) n (Nat.lt_succ_self n)

theorem renderNat_injective : Function.Injective renderNat := by
  intro a b h
  have ha := parseNat_renderNat a
  have hb := parseNat_renderNat b
  rw [h, hb] at ha
  exact ha.symm

theorem suffix_label_injective (base : List Nat) :
    Function.Injective (fun n => base ++ 45 :: renderNat n) := by
  intro a b h
  simp only [List.append_cancel_left_eq, List.cons.injEq, true_and] at h
  exact renderNat_injective h

theorem exists_fresh_suffix (used : List (List Nat)) (base : List Nat) :
    ∃ k, k ≤ used.length ∧ base ++ 45 :: renderNat (2 + k) ∉ used := by
  by_contra hcon
  push_neg at hcon
  have hmem : ∀ k, k ≤ used.length → base ++ 45 :: renderNat (2 + k) ∈ used :=
    hcon
  have hinj : Function.Injective (fun k : Nat => base ++ 45 :: renderNat (2 + k)) := by
    intro a b h
    have := suffix_label_injective base h
    omega
  have hsub : (Finset.range (used.length + 1)).image
      (fun k => base ++ 45 :: renderNat (2 + k)) ⊆ used.toFinset := by
    intro x hx
    rw [Finset.mem_image] at hx
    obtain ⟨k, hk, rfl⟩ := hx
    rw [Finset.mem_range] at hk
    exact List.mem_toFinset.mpr (hmem k (by omega))
  have hcard := Finset.card_le_card hsub
  rw [Finset.card_image_of_injective _ hinj, Finset.card_range] at hcard
  have := List.toFinset_card_le used
  omega

theorem freshLabelAux_spec (used : List (List Nat)) (base : List Nat) :
    ∀ (fuel n : Nat), (∃ k, k < fuel ∧ base ++ 45 :: renderNat (n + k) ∉ used) →
    ∃ j, freshLabelAux used base fuel n = base ++ 45 :: renderNat (n + j)
      ∧ base ++ 45 :: renderNat (n + j) ∉ used
      ∧ ∀ i, i < j → base ++ 45 :: renderNat (n + i) ∈ used := by
  intro fuel
  induction fuel with
  | zero =>
    intro n h
    obtain ⟨k, hk, _⟩ := h
    omega
  | succ fuel ih =>
    intro n h
    obtain ⟨k, hk, hfree⟩ := h
    by_cases hmem : (base ++ 45 :: renderNat n) ∈ used
    · have hk0 : k ≠ 0 := by
        rintro rfl
        rw [Nat.add_zero] at hfree
        exact hfree hmem
      obtain ⟨j, hj1, hj2, hj3⟩ := ih (n + 1)
        ⟨k - 1, by omega, by
          have heq : n + 1 + (k - 1) = n + k := by omega
          rw [heq]
          exact hfree⟩
      refine ⟨j + 1, ?_, ?_, ?_⟩
      · simp only [freshLabelAux, if_pos hmem]
        rw [hj1]
        have heq : n + 1 + j = n + (j + 1) := by omega
        rw [heq]
      · have heq : n + (j + 1) = n + 1 + j := by omega
        rw [heq]
        exact hj2
      · intro i hi
        cases i with
        | zero => simpa using hmem
        | succ i' =>
          have heq : n + (i' + 1) = n + 1 + i' := by omega
          rw [heq]
          exact hj3 i' (by omega)
    · refine ⟨0, ?_, by simpa using hmem, by omega⟩
      simp only [freshLabelAux, if_neg hmem, Nat.add_zero]

theorem freshLabel_not_mem (used : List (List Nat)) (base : List Nat) :
    freshLabel used base ∉ used := by
  by_cases hb : base ∈ used
  · rw [freshLabel, if_pos hb]
    obtain ⟨k, hk, hfree⟩ := exists_fresh_suffix used base
    obtain ⟨j, hj1, hj2, _⟩ := freshLabelAux_spec used base (used.length + 1) 2
      ⟨k, by omega, hfree⟩
    rw [hj1]
    exact hj2
  · rw [freshLabel, if_neg hb]
    exact hb

theorem freshLabel_of_not_mem (used : List (List Nat)) (base : List Nat)
    (hb : base ∉ used) : freshLabel used base = base := by
  rw [freshLabel, if_neg hb]

theorem freshLabel_of_mem (used : List (List Nat)) (base : List Nat)
    (hb : base ∈ used) :
    ∃ n, 2 ≤ n ∧ freshLabel used base = base ++ 45 :: renderNat n
      ∧ base ++ 45 :: renderNat n ∉ used
      ∧ ∀ k, 2 ≤ k → k < n → base ++ 45 :: renderNat k ∈ used := by
  rw [freshLabel, if_pos hb]
  obtain ⟨k, hk, hfree⟩ := exists_fresh_suffix used base
  obtain ⟨j, hj1, hj2, hj3⟩ := freshLabelAux_spec used base (used.length + 1) 2
    ⟨k, by omega, hfree⟩
  refine ⟨2 + j, by omega, hj1, hj2, ?_⟩
  intro i h2i hij
  have := hj3 (i - 2) (by omega)
  have heq : 2 + (i - 2) = i := by omega
  rw [heq] at this
  exact this

theorem loadInvGo_append (p : PyPath) :
    ∀ (ps : List PyPath) (acc : List (List Nat × List Nat)),
      loadInvGo (ps ++ [p]) acc
        = loadInvGo ps acc
          ++ [(freshLabel ((loadInvGo ps acc).map Prod.fst) (pyLabel p),
               load_inventory p.content)] := by
  intro ps
  induction ps with
  | nil => intro acc; rfl
  | cons q ps ih =>
    intro acc
    simp only [List.cons_append, loadInvGo]
    exact ih _

theorem load_inventories_append (ps : List PyPath) (p : PyPath) :
    load_inventories (ps ++ [p])
      = load_inventories ps
        ++ [(freshLabel ((load_inventories ps).map Prod.fst) (pyLabel p),
             load_inventory p.content)] :=
  loadInvGo_append p ps []

theorem load_inventories_map_snd (ps : List PyPath) :
    (load_inventories ps).map Prod.snd = ps.map (fun p => load_inventory p.content) := by
  induction ps using List.reverseRecOn with
  | nil => rfl
  | append_singleton ps p ih =>
    rw [load_inventories_append, List.map_append, ih, List.map_append]
    rfl

theorem load_inventories_length (ps : List PyPath) :
    (load_inventories ps).length = ps.length := by
  have h := congrArg List.length (load_inventories_map_snd ps)
  simpa using h

theorem load_inventories_nodup (ps : List PyPath) :
    ((load_inventories ps).map Prod.fst).Nodup := by
  induction ps using List.reverseRecOn with
  | nil => simp [load_inventories, loadInvGo]
  | append_singleton ps p ih =>
    rw [load_inventories_append, List.map_append]
    refine List.Nodup.append ih (List.nodup_singleton _) ?_
    intro a ha hb
    simp only [List.map_cons, List.map_nil, List.mem_singleton] at hb
    subst hb
    exact freshLabel_not_mem _ _ ha

theorem load_inventories_label_spec (ps : List PyPath)
    (hstem : ∀ p ∈ ps, p.stem ≠ []) :
    ∀ i, i < ps.length →
      ((ps.getD i dfltPath).stem ∉ ((load_inventories ps).take i).map Prod.fst →
        ((load_inventories ps).getD i ([], [])).1 = (ps.getD i dfltPath).stem)
      ∧ ((ps.getD i dfltPath).stem ∈ ((load_inventories ps).take i).map Prod.fst →
        ∃ n, 2 ≤ n
          ∧ ((load_inventories ps).getD i ([], [])).1
              = (ps.getD i dfltPath).stem ++ 45 :: renderNat n
          ∧ ((load_inventories ps).getD i ([], [])).1
              ∉ ((load_inventories ps).take i).map Prod.fst
          ∧ ∀ k, 2 ≤ k → k < n →
              (ps.getD i dfltPath).stem ++ 45 :: renderNat k
                ∈ ((load_inventories ps).take i).map Prod.fst) := by
  induction ps using List.reverseRecOn with
  | nil => intro i hi; simp at hi
  | append_singleton ps p ih =>
    intro i hi
    have hstem' : ∀ q ∈ ps, q.stem ≠ [] :=
      fun q hq => hstem q (List.mem_append_left _ hq)
    have hlen : (load_inventories ps).length = ps.length := load_inventories_length ps
    rw [List.length_append, List.length_singleton] at hi
    by_cases hcase : i < ps.length
    · have e1 : (ps ++ [p]).getD i dfltPath = ps.getD i dfltPath :=
        List.getD_append _ _ _ _ hcase
      have e2 : (load_inventories (ps ++ [p])).getD i ([], [])
          = (load_inventories ps).getD i ([], []) := by
        rw [load_inventories_append]
        exact List.getD_append _ _ _ _ (by omega)
      have e3 : (load_inventories (ps ++ [p])).take i
          = (load_inventories ps).take i := by
        rw [load_inventories_append]
        exact List.take_append_of_le_length (by omega)
      rw [e1, e2, e3]
      exact ih hstem' i hcase
    · have hieq : i = ps.length := by omega
      subst hieq
      have hpfin : p ∈ ps ++ [p] := List.mem_append_right _ (List.mem_singleton_self p)
      have hpl : pyLabel p = p.stem := by
        rw [pyLabel, if_neg (hstem p hpfin)]
      have e1 : (ps ++ [p]).getD ps.length dfltPath = p := by
        rw [List.getD_append_right _ _ _ _ (Nat.le_refl _), Nat.sub_self]
        rfl
      have e2 : (load_inventories (ps ++ [p])).getD ps.length ([], [])
          = (freshLabel ((load_inventories ps).map Prod.fst) p.stem,
             load_inventory p.content) := by
        rw [load_inventories_append, hpl,
          List.getD_append_right _ _ _ _ (by omega)]
        rw [hlen, Nat.sub_self]
        rfl
      have e3 : (load_inventories (ps ++ [p])).take ps.length = load_inventories ps := by
        rw [load_inventories_append, ← hlen, List.take_left]
      rw [e1, e2, e3]
      constructor
      · intro hnot
        exact freshLabel_of_not_mem _ _ hnot
      · intro hmem
        obtain ⟨n, hn2, heq, hfree, hmin⟩ := freshLabel_of_mem _ _ hmem
        exact ⟨n, hn2, heq, freshLabel_not_mem _ _, hmin⟩

/-- Claim C9: `load_inventories` keys each inventory by the file's
stem, resolves a collision by appending `-2`, `-3`, … (taking the
first unused suffix in encounter order), and the resulting ordered
mapping lists the inventories in input file order: the i-th entry
holds `load_inventory` of the i-th file, labels are pairwise distinct,
the label is the stem itself whenever the stem is unused among the
earlier labels, and otherwise it is `stem-n` with `n ≥ 2` minimal such
that `stem-n` is unused among the earlier labels. -/
theorem spec_c9 (ps : List PyPath) (hstem : ∀ p ∈ ps, p.stem ≠ []) :
    (load_inventories ps).map Prod.snd = ps.map (fun p => load_inventory p.content)
    ∧ ((load_inventories ps).map Prod.fst).Nodup
    ∧ ∀ i, i < ps.length →
        ((ps.getD i dfltPath).stem ∉ ((load_inventories ps).take i).map Prod.fst →
          ((load_inventories ps).getD i ([], [])).1 = (ps.getD i dfltPath).stem)
        ∧ ((ps.getD i dfltPath).stem ∈ ((load_inventories ps).take i).map Prod.fst →
          ∃ n, 2 ≤ n
            ∧ ((load_inventories ps).getD i ([], [])).1
                = (ps.getD i dfltPath).stem ++ 45 :: renderNat n
            ∧ ((load_inventories ps).getD i ([], [])).1
                ∉ ((load_inventories ps).take i).map Prod.fst
            ∧ ∀ k, 2 ≤ k → k < n →
                (ps.getD i dfltPath).stem ++ 45 :: renderNat k
                  ∈ ((load_inventories ps).take i).map Prod.fst) :=
  ⟨load_inventories_map_snd ps, load_inventories_nodup ps,
    load_inventories_label_spec ps hstem⟩

/-- Witness for C9: two files with the same stem load into a mapping
with pairwise distinct labels. -/
theorem spec_c9_witness :
    ((load_inventories [⟨[97], [97], [0x4E00]⟩, ⟨[97], [97], []⟩]).map Prod.fst).Nodup :=
  (spec_c9 [⟨[97], [97], [0x4E00]⟩, ⟨[97], [97], []⟩] (by decide)).2.1
